import Mathlib

/-!
Verification of the membership core (roster / change set / fake authority)
of the dela repository against its natural-language specification.

The Go sources embedded here:
* `internal/testing/fake/mod.go` — fake `Address`, `AddressFactory`,
  `AddressIterator`, `CollectiveAuthority` (`GetPublicKey`, `Take`, `Apply`).
* `contracts/evoting/controller/mod.go` — the e-voting `client.GetNonce`
  nonce counter, the roster test-suite, and the JSON `changeSetFormat`
  (`Encode` / `Decode`).

The roster package itself (`roster.Apply`, `roster.Diff`, the roster
iterators) ships only its tests here; those operations are modelled from the
spec, constrained by the behaviour the in-repo tests demand.
-/

namespace Dela

/-- A fake address is identified by its integer index
(`fake.Address` in `internal/testing/fake/mod.go`); `Equal` compares the
indices, so the Lean model uses the index itself. -/
abbrev Addr := Nat

/-- A player of a roster: one address paired with one public key.  Public
keys are opaque to the membership core, so they are modelled as bare
naturals identifying the key value. -/
structure Player where
  Address : Addr
  PublicKey : Nat
deriving DecidableEq, Repr

/-- A change set: positional removal indices into the source roster and the
players appended afterwards (`roster.ChangeSet`). -/
structure ChangeSet where
  Remove : List Nat
  Add : List Player
deriving DecidableEq, Repr

/-! ### Fake address text codec (`fake.Address.MarshalText`,
`fake.AddressFactory.FromText`) -/

/-- Model of `fake.Address.MarshalText`: a 4-byte little-endian encoding of
`uint32(a.index)`. -/
def marshalText (a : Addr) : List Nat :=
  let v := a % 2 ^ 32
  [v % 2 ^ 8, v / 2 ^ 8 % 2 ^ 8, v / 2 ^ 16 % 2 ^ 8, v / 2 ^ 24 % 2 ^ 8]

/-- Model of `fake.AddressFactory.FromText`: decodes the first four bytes as a
little-endian `uint32` — but only when the input is strictly longer than
four bytes; otherwise it returns the zero address `Address{}`. -/
def fromText (text : List Nat) : Addr :=
  if 4 < text.length then
    text.getD 0 0 + text.getD 1 0 * 2 ^ 8 + text.getD 2 0 * 2 ^ 16 +
      text.getD 3 0 * 2 ^ 24
  else 0

/-! ### Roster operations modelled from the spec

`roster.Apply` and `roster.Diff` of the viewchange roster package are not
part of the sources here — only their tests (`TestRoster_Apply`,
`TestRoster_Diff`) are.  They are modelled from the spec (§4.1), and the
models reproduce every data point those tests pin down. -/

/-- Modelled from the spec: the removal phase of `roster.Apply`, which is
missing from the sources.  Walks the source roster with its running
position and keeps exactly the players whose position is not listed in
`rem`; out-of-range or duplicate indices therefore have no extra effect,
matching `TestRoster_Apply` (`Remove: [3,2,0]` on a 3-roster leaves 1). -/
def applyLoop (rem : List Nat) : List Player → Nat → List Player
  | [], _ => []
  | p :: ps, i =>
    if i ∈ rem then applyLoop rem ps (i + 1)
    else p :: applyLoop rem ps (i + 1)

/-- Modelled from the spec: `roster.Apply`, which is missing from the
sources.  A `none` argument stands for the nil interface value, for which
the Go type assertion fails and the receiver is returned unchanged
(`TestRoster_Apply`); otherwise the players at the removal positions are
dropped and the added players appended. -/
def applyRoster (ps : List Player) : Option ChangeSet → List Player
  | none => ps
  | some cs => applyLoop cs.Remove ps 0 ++ cs.Add

/-- Modelled from the spec: the two-pointer scan of `roster.Diff`, which is
missing from the sources.  It walks both rosters front to back: matching
addresses advance both sides, a mismatch records the receiver's position
for removal, and once the receiver is exhausted the remaining players of
the other roster are recorded as additions.  This reproduces every case of
`TestRoster_Diff` (grow by one: one addition; shrink by one: `Remove [2]`;
`[0,1,2]` against `[0,5,2]`: `Remove [1,2]` and two additions). -/
def diffScan : List Player → List Player → Nat → ChangeSet
  | [], bs, _ =>
    { Remove := [], Add := bs }
  | _ :: as, [], i =>
    let cs := diffScan as [] (i + 1)
    { Remove := i :: cs.Remove, Add := cs.Add }
  | a :: as, b :: bs, i =>
    if a.Address = b.Address then diffScan as bs (i + 1)
    else
      let cs := diffScan as (b :: bs) (i + 1)
      { Remove := i :: cs.Remove, Add := cs.Add }

/-- The argument handed to `roster.Diff`: either an actual roster, an
authority of an incompatible concrete type, or the nil interface value. -/
inductive Authority where
  | ros : List Player → Authority
  | incompatible : Authority
  | nilAuthority : Authority
deriving DecidableEq

/-- Modelled from the spec: `roster.Diff`, which is missing from the
sources.  The Go type assertion on the argument fails for a nil or
incompatible authority, in which case the empty change set is returned
(`TestRoster_Diff`, final case). -/
def diffRoster (ps : List Player) : Authority → ChangeSet
  | .ros other => diffScan ps other 0
  | _ => { Remove := [], Add := [] }

/-- B is reachable from A by removals followed by appended additions:
some subsequence of A, kept in order, forms a prefix of B. -/
def ReachableFrom (A B : List Player) : Prop :=
  ∃ keep adds, keep.Sublist A ∧ B = keep ++ adds

/-! ### Fake collective authority (`fake.CollectiveAuthority`) -/

/-- Model of `fake.CollectiveAuthority`: the parallel slices of member addresses and
of signers; a signer is reduced to the public key its `GetPublicKey`
returns. -/
structure CollectiveAuthority where
  addrs : List Addr
  signers : List Nat
deriving DecidableEq, Repr

/-- The range loop of `fake.CollectiveAuthority.GetPublicKey`: scan the
addresses with their running position, returning the matching signer's
public key and position on the first address equality. -/
def gpkLoop (signers : List Nat) (target : Addr) :
    List Addr → Nat → Option Nat × Int
  | [], _ => (none, -1)
  | a :: as, i =>
    if a = target then (signers.get? i, (i : Int))
    else gpkLoop signers target as (i + 1)

/-- Model of `fake.CollectiveAuthority.GetPublicKey`: linear scan by address
equality; `(none, -1)` models the Go `(nil, -1)` miss result.  The Go
function has no error return value. -/
def getPublicKey (ca : CollectiveAuthority) (target : Addr) :
    Option Nat × Int :=
  gpkLoop ca.signers target ca.addrs 0

/-! ### Fake address iterator (`fake.AddressIterator`) -/

/-- Model of `fake.AddressIterator`: a cursor index into the backing address slice.
The Go index is a signed int starting at `-1`, so it is an `Int` here. -/
structure AddressIterator where
  addrs : List Addr
  index : Int
deriving DecidableEq, Repr

/-- Model of `fake.AddressIterator.HasNext`: whether `index+1` is still inside the
backing slice. -/
def AddressIterator.hasNext (it : AddressIterator) : Bool :=
  it.index + 1 < (it.addrs.length : Int)

/-- Model of `fake.AddressIterator.GetNext`: when another element exists, advance
the cursor and return the element now under it; otherwise return the Go
`nil`, modelled as `none`, and leave the iterator untouched. -/
def AddressIterator.getNext (it : AddressIterator) :
    AddressIterator × Option Addr :=
  if it.hasNext then
    ({ addrs := it.addrs, index := it.index + 1 },
      it.addrs.get? (it.index + 1).toNat)
  else (it, none)

/-- Model of `fake.CollectiveAuthority.AddressIterator`: a fresh iterator over the
authority's addresses, cursor at `-1`. -/
def addressIterator (ca : CollectiveAuthority) : AddressIterator :=
  { addrs := ca.addrs, index := -1 }

/-- Performs `n` successive `GetNext` calls, returning the final iterator
state and the list of results. -/
def runNext : AddressIterator → Nat → AddressIterator × List (Option Addr)
  | it, 0 => (it, [])
  | it, n + 1 =>
    let step := it.getNext
    let rest := runNext step.1 n
    (rest.1, step.2 :: rest.2)

/-! ### Heap model for the in-place-mutation claim

The fake authority's `Apply` and `Take` build their result in freshly
allocated backing arrays (`make` + copy) and mutate only those.  To make
"the receiver is never mutated in place" a real statement, slices are
modelled as references into a heap of backing arrays; the Go parallel
`addrs`/`signers` slices, which every operation updates in lockstep with
the same indices, are modelled as a single array of players. -/

/-- A heap of slice backing arrays, addressed by allocation order. -/
structure Heap where
  arrays : List (List Player)
deriving DecidableEq, Repr

/-- Reads the contents of the backing array behind reference `r`. -/
def Heap.read (h : Heap) (r : Nat) : List Player :=
  h.arrays.getD r []

/-- Go `make` plus copy: allocates a fresh backing array holding `c` and
returns its reference. -/
def Heap.alloc (h : Heap) (c : List Player) : Heap × Nat :=
  ({ arrays := h.arrays ++ [c] }, h.arrays.length)

/-- Overwrites the backing array behind reference `r`. -/
def Heap.write (h : Heap) (r : Nat) (c : List Player) : Heap :=
  { arrays := h.arrays.set r c }

/-- Go's `append(a[:i], a[i+1:]...)` removal idiom; `none` models the
out-of-range slice panic. -/
def goRemoveAt (l : List Player) (i : Nat) : Option (List Player) :=
  if i + 1 ≤ l.length then some (l.take i ++ l.drop (i + 1)) else none

/-- The removal loop of `fake.CollectiveAuthority.Apply`: for each listed
index, in the given order, re-slice the destination array in place. -/
def applyRemoves (h : Heap) (r : Nat) : List Nat → Option Heap
  | [] => some h
  | i :: rest =>
    match goRemoveAt (h.read r) i with
    | some c => applyRemoves (h.write r c) r rest
    | none => none

/-- The addition loop of `fake.CollectiveAuthority.Apply`: append each
added player to the destination array. -/
def appendAdds (dst : Nat) (h : Heap) : List Player → Heap
  | [] => h
  | p :: adds => appendAdds dst (h.write dst (h.read dst ++ [p])) adds

/-- Model of `fake.CollectiveAuthority.Apply` on the heap: copy the receiver's
players into a fresh array, append each added player, then run the removal
loop — all writes target the fresh array only.  (The optional `Call`
recording of the fake is test instrumentation and is not modelled.) -/
def fakeApplyH (h : Heap) (src : Nat) (cs : ChangeSet) :
    Option (Heap × Nat) :=
  let alloc := h.alloc (h.read src)
  let h1 := alloc.1
  let dst := alloc.2
  let h2 := appendAdds dst h1 cs.Add
  match applyRemoves h2 dst cs.Remove with
  | some h3 => some (h3, dst)
  | none => none

/-- Model of `fake.CollectiveAuthority.Take` on the heap: resolve the filter
to an index list, gather the receiver's players at those indices into a
fresh array (`none` models an out-of-range index panic), and return its
reference. -/
def fakeTakeH (h : Heap) (src : Nat) (indices : List Nat) :
    Option (Heap × Nat) :=
  match indices.mapM (fun k => (h.read src).get? k) with
  | some content => some (h.alloc content)
  | none => none

/-! ### JSON change-set format (`changeSetFormat` in
`consensus/viewchange/roster/json`) -/

/-- The JSON `Player` message: marshalled address bytes and serialized
public key bytes. -/
structure PlayerMsg where
  Address : List Nat
  PublicKey : List Nat
deriving DecidableEq, Repr

/-- The JSON `ChangeSet` message. -/
structure ChangeSetMsg where
  Remove : List Nat
  Add : List PlayerMsg
deriving DecidableEq, Repr

/-- The codecs the format resolves from its context: the players' address
marshaller (`MarshalText`, fallible), the public-key serializer
(fallible), and the address / public-key factories used on decode.  An
address factory never fails (`mino.AddressFactory.FromText` is total). -/
structure Codec where
  marshalAddr : Addr → Option (List Nat)
  serializePK : Nat → Option (List Nat)
  addrFromText : List Nat → Addr
  publicKeyOf : List Nat → Option Nat

/-- The per-player body of the encoding loop of `changeSetFormat.Encode`:
marshal the address, serialize the public key, first failure aborts. -/
def encPlayer (c : Codec) (p : Player) : Option PlayerMsg := do
  let a ← c.marshalAddr p.Address
  let k ← c.serializePK p.PublicKey
  pure { Address := a, PublicKey := k }

/-- The encoding loop over the added players: first failure aborts, as the
Go loop returns the error immediately. -/
def encodeAdds (c : Codec) : List Player → Option (List PlayerMsg)
  | [] => some []
  | p :: ps => do
    let m ← encPlayer c p
    let rest ← encodeAdds c ps
    pure (m :: rest)

/-- Model of `changeSetFormat.Encode`: serialize every added player (first failure
aborts with an error) and copy the removal indices.  The final
`ctx.Marshal` step, a faithful JSON rendering of this plain message
struct, is modelled by the message itself standing for its bytes. -/
def csEncode (c : Codec) (cs : ChangeSet) : Option ChangeSetMsg :=
  (encodeAdds c cs.Add).map
    fun add => { Remove := cs.Remove, Add := add }

/-- The per-player body of the decoding loop of `changeSetFormat.Decode`:
the address factory rebuilds the address (it cannot fail), the public-key
factory may fail. -/
def decPlayer (c : Codec) (p : PlayerMsg) : Option Player := do
  let k ← c.publicKeyOf p.PublicKey
  pure { Address := c.addrFromText p.Address, PublicKey := k }

/-- The decoding loop over the added players: first failure aborts. -/
def decodeAdds (c : Codec) : List PlayerMsg → Option (List Player)
  | [] => some []
  | p :: ps => do
    let q ← decPlayer c p
    let rest ← decodeAdds c ps
    pure (q :: rest)

/-- Model of `changeSetFormat.Decode`: unmarshal the message, then — keeping the
`Add` field nil when no addition is present, to match an empty change
set — rebuild each added player through the context's factories. -/
def csDecode (c : Codec) (m : ChangeSetMsg) : Option ChangeSet :=
  if m.Add.length = 0 then some { Remove := m.Remove, Add := [] }
  else
    (decodeAdds c m.Add).map
      fun add => { Remove := m.Remove, Add := add }

/-! ### E-voting client nonce (`contracts/evoting/controller/mod.go`) -/

/-- The e-voting signing client: holds the next nonce, a Go `uint64`. -/
structure Client where
  nonce : Nat
deriving DecidableEq, Repr

/-- Model of `client.GetNonce`: returns the stored nonce and a nil error, and
increments the stored `uint64` (wrapping at `2 ^ 64`). -/
def getNonce (c : Client) : (Nat × Option String) × Client :=
  ((c.nonce, none), { nonce := (c.nonce + 1) % 2 ^ 64 })

/-! ## Supporting lemmas -/

/-- Every removal index the diff scan records from position `i` onwards is
at least `i`. -/
theorem diffScan_remove_lb (as : List Player) :
    ∀ bs i, ∀ r ∈ (diffScan as bs i).Remove, i ≤ r := by
  induction as with
  | nil => intro bs i r hr; simp [diffScan] at hr
  | cons a as ih =>
    intro bs i r hr
    cases bs with
    | nil =>
      simp only [diffScan, List.mem_cons] at hr
      rcases hr with h | h
      · omega
      · have := ih [] (i + 1) r h; omega
    | cons b bs =>
      by_cases hab : a.Address = b.Address
      · simp only [diffScan, if_pos hab] at hr
        have := ih bs (i + 1) r hr; omega
      · simp only [diffScan, if_neg hab, List.mem_cons] at hr
        rcases hr with h | h
        · omega
        · have := ih (b :: bs) (i + 1) r h; omega

/-- Removal indices strictly below the running position never fire. -/
theorem applyLoop_drop_lt (r : Nat) (rem : List Nat) (ps : List Player) :
    ∀ i, r < i → applyLoop (r :: rem) ps i = applyLoop rem ps i := by
  induction ps with
  | nil => intro i _; rfl
  | cons p ps ih =>
    intro i hi
    have hne : ¬ i = r := by omega
    have hmem : (i ∈ r :: rem) = (i ∈ rem) := by
      simp [List.mem_cons, hne]
    by_cases h : i ∈ rem
    · simp only [applyLoop, hmem, if_pos h, ih (i + 1) (by omega)]
    · simp only [applyLoop, hmem, if_neg h, ih (i + 1) (by omega)]

/-- Core of the diff/apply round trip: keeping exactly the positions the
scan did not mark for removal and appending the recorded additions
reproduces the other roster's address sequence. -/
theorem diffScan_apply (as : List Player) :
    ∀ bs i,
      (applyLoop (diffScan as bs i).Remove as i
          ++ (diffScan as bs i).Add).map Player.Address
        = bs.map Player.Address := by
  induction as with
  | nil => intro bs i; simp [diffScan, applyLoop]
  | cons a as ih =>
    intro bs i
    cases bs with
    | nil =>
      simp only [diffScan]
      have hmem : i ∈ i :: (diffScan as [] (i + 1)).Remove := List.mem_cons_self _ _
      simp only [applyLoop, if_pos hmem,
        applyLoop_drop_lt i _ as (i + 1) (by omega)]
      simpa using ih [] (i + 1)
    | cons b bs =>
      by_cases hab : a.Address = b.Address
      · simp only [diffScan, if_pos hab]
        have hnot : ¬ i ∈ (diffScan as bs (i + 1)).Remove := by
          intro h
          have := diffScan_remove_lb as bs (i + 1) i h
          omega
        simp only [applyLoop, if_neg hnot, List.cons_append, List.map_cons,
          hab, ih bs (i + 1)]
      · simp only [diffScan, if_neg hab]
        have hmem : i ∈ i :: (diffScan as (b :: bs) (i + 1)).Remove :=
          List.mem_cons_self _ _
        simp only [applyLoop, if_pos hmem,
          applyLoop_drop_lt i _ as (i + 1) (by omega)]
        exact ih (b :: bs) (i + 1)

/-- Keeping every position reproduces the roster. -/
theorem applyLoop_nil_remove (ps : List Player) :
    ∀ i, applyLoop [] ps i = ps := by
  induction ps with
  | nil => intro i; rfl
  | cons p ps ih =>
    intro i
    simp [applyLoop, ih (i + 1)]

/-- The removal phase keeps exactly the players whose enumerated position
is outside the removal list, in order. -/
theorem applyLoop_eq_filter (rem : List Nat) (ps : List Player) :
    ∀ i,
      applyLoop rem ps i
        = ((List.enumFrom i ps).filter
            (fun x => decide (¬ x.1 ∈ rem))).map Prod.snd := by
  induction ps with
  | nil => intro i; rfl
  | cons p ps ih =>
    intro i
    by_cases h : i ∈ rem
    · simp [applyLoop, List.enumFrom, h, ih (i + 1)]
    · simp [applyLoop, List.enumFrom, h, ih (i + 1)]

/-- Counting the kept positions: the filtered enumeration has as many
entries as the in-range positions outside the removal list. -/
theorem applyLoop_length (rem : List Nat) (ps : List Player) :
    ∀ i,
      (applyLoop rem ps i).length
        = ((List.range' i ps.length).filter
            (fun j => decide (¬ j ∈ rem))).length := by
  induction ps with
  | nil => intro i; rfl
  | cons p ps ih =>
    intro i
    by_cases h : i ∈ rem
    · simp [applyLoop, List.range'_succ, h, ih (i + 1)]
    · simp [applyLoop, List.range'_succ, h, ih (i + 1)]

/-! ## Claim theorems -/

/-- C1: for all rosters A and B with B reachable from A by removals
followed by a suffix of additions, applying to A the change set computed
by `A.Diff(B)` yields a roster whose address sequence — hence address
set — equals that of B. -/
theorem diff_apply_roundtrip (A B : List Player) (_hreach : ReachableFrom A B) :
    (applyRoster A (some (diffRoster A (.ros B)))).map Player.Address
      = B.map Player.Address := by
  simpa [applyRoster, diffRoster] using diffScan_apply A B 0

/-- Witness for C1 at `A = [0,1,2]`, `B = [0,2,5]` (player `1` removed,
player `5` appended). -/
theorem diff_apply_roundtrip_witness :
    (applyRoster [⟨0, 10⟩, ⟨1, 11⟩, ⟨2, 12⟩]
        (some (diffRoster [⟨0, 10⟩, ⟨1, 11⟩, ⟨2, 12⟩]
          (.ros [⟨0, 10⟩, ⟨2, 12⟩, ⟨5, 15⟩])))).map Player.Address
      = [0, 2, 5] := by
  have h := diff_apply_roundtrip [⟨0, 10⟩, ⟨1, 11⟩, ⟨2, 12⟩]
    [⟨0, 10⟩, ⟨2, 12⟩, ⟨5, 15⟩]
    ⟨[⟨0, 10⟩, ⟨2, 12⟩], [⟨5, 15⟩], by decide, rfl⟩
  exact h.trans (by decide)

/-- C2 counterexample: `TestRoster_Apply` applies
`ChangeSet{Remove: [3,2,0]}` to a 3-player roster and the result has one
player, not `3 - len(Remove) + len(Add) = 0` as the claimed length formula
requires (the out-of-range index `3` removes nobody). -/
theorem apply_length_formula_cex :
    ¬ ((applyRoster [⟨0, 20⟩, ⟨1, 21⟩, ⟨2, 22⟩]
          (some { Remove := [3, 2, 0], Add := [] })).length
        = ([⟨0, 20⟩, ⟨1, 21⟩, ⟨2, 22⟩] : List Player).length - [3, 2, 0].length
          + ([] : List Player).length) := by
  decide

/-- C2 amended: Apply keeps exactly the players whose position in the
source roster is not listed in `Remove` (so out-of-range and duplicate
indices have no extra effect) and only then appends the `Add` players; the
result length is the number of in-range positions outside `Remove` plus
`len(Add)`. -/
theorem apply_removes_then_appends (ps : List Player) (cs : ChangeSet) :
    applyRoster ps (some cs)
      = ((List.enumFrom 0 ps).filter
            (fun x => decide (¬ x.1 ∈ cs.Remove))).map Prod.snd ++ cs.Add
    ∧ (applyRoster ps (some cs)).length
      = ((List.range ps.length).filter
            (fun j => decide (¬ j ∈ cs.Remove))).length + cs.Add.length := by
  constructor
  · simp [applyRoster, applyLoop_eq_filter]
  · simp [applyRoster, applyLoop_length, List.range_eq_range']

/-- C3: applying the nil change set or the empty change set returns the
roster unchanged — same players, same order. -/
theorem apply_empty_changeset (ps : List Player) :
    applyRoster ps none = ps
    ∧ applyRoster ps (some { Remove := [], Add := [] }) = ps := by
  refine ⟨rfl, ?_⟩
  simp [applyRoster, applyLoop_nil_remove]

/-- C4: the fake address text codec does not round-trip.  `MarshalText`
produces exactly four bytes, but `FromText` decodes an index only from
inputs strictly longer than four bytes, so decoding the encoding of
address `1` yields the zero address instead of `1`.  (The spec's invariant
— "text encoding round-trips through the paired factory" — is the evident
intent; the `> 4` length guard is an off-by-one slip, since the decoder
reads exactly four bytes.) -/
theorem marshal_fromText_no_roundtrip :
    marshalText 1 = [1, 0, 0, 0]
    ∧ (marshalText 1).length = 4
    ∧ fromText (marshalText 1) = 0
    ∧ fromText (marshalText 1) ≠ 1 := by
  decide

/-- The scan loop returns the first match, offset by the running
position. -/
theorem gpkLoop_spec (signers : List Nat) (target : Addr) (as : List Addr) :
    ∀ i,
      gpkLoop signers target as i
        = if target ∈ as then
            (signers.get? (i + List.indexOf target as),
              ((i + List.indexOf target as : Nat) : Int))
          else (none, -1) := by
  induction as with
  | nil => intro i; simp [gpkLoop]
  | cons a as ih =>
    intro i
    by_cases h : a = target
    · subst h
      simp [gpkLoop, List.indexOf_cons_self]
    · have h' : target ≠ a := fun hh => h hh.symm
      have hidx : List.indexOf target (a :: as) = (List.indexOf target as) + 1 :=
        List.indexOf_cons_ne as h
      have hmem : (target ∈ a :: as) = (target ∈ as) := by
        simp [List.mem_cons, h']
      by_cases hin : target ∈ as
      · simp only [gpkLoop, if_neg h, ih (i + 1), if_pos hin, hmem, hidx]
        norm_num [Nat.add_assoc, Nat.add_comm 1]
      · simp only [gpkLoop, if_neg h, ih (i + 1), if_neg hin, hmem]

/-- C5: `GetPublicKey` is a linear scan by address equality; on a present
address it returns the public key of the first matching player together
with that player's index, on an absent address it returns `(nil, -1)`.
The Go function has no error return value and the model is total, so no
error outcome exists. -/
theorem getPublicKey_scan (ca : CollectiveAuthority) (target : Addr)
    (hlen : ca.signers.length = ca.addrs.length) :
    (target ∈ ca.addrs →
      getPublicKey ca target
        = (ca.signers.get? (List.indexOf target ca.addrs),
            ((List.indexOf target ca.addrs : Nat) : Int))
      ∧ (ca.signers.get? (List.indexOf target ca.addrs)).isSome = true)
    ∧ (¬ target ∈ ca.addrs → getPublicKey ca target = (none, -1)) := by
  constructor
  · intro hmem
    constructor
    · simpa [hmem] using gpkLoop_spec ca.signers target ca.addrs 0
    · have hlt : List.indexOf target ca.addrs < ca.addrs.length :=
        List.indexOf_lt_length.mpr hmem
      rw [List.get?_eq_getElem?, List.getElem?_eq_getElem (by omega)]
      rfl
  · intro hmem
    simpa [hmem] using gpkLoop_spec ca.signers target ca.addrs 0

/-- Witness for C5 on the authority `{addrs := [5,7], signers := [50,70]}`:
address `7` is found at index 1 with key `70`, address `9` misses with
`(none, -1)`. -/
theorem getPublicKey_scan_witness :
    getPublicKey { addrs := [5, 7], signers := [50, 70] } 7 = (some 70, 1)
    ∧ getPublicKey { addrs := [5, 7], signers := [50, 70] } 9 = (none, -1) := by
  have h7 := getPublicKey_scan { addrs := [5, 7], signers := [50, 70] } 7
    (by decide)
  have h9 := getPublicKey_scan { addrs := [5, 7], signers := [50, 70] } 9
    (by decide)
  exact ⟨((h7.1 (by decide)).1).trans (by decide), h9.2 (by decide)⟩

/-- Running the iterator for the number of remaining elements: starting
with `k` elements already consumed (cursor at `k - 1`), the next
`length - k` calls yield exactly the remaining addresses and leave the
cursor on the last element. -/
theorem runNext_spec (l : List Addr) :
    ∀ n k, k + n = l.length →
      runNext { addrs := l, index := (k : Int) - 1 } n
        = ({ addrs := l, index := (l.length : Int) - 1 },
            (l.drop k).map some) := by
  intro n
  induction n with
  | zero =>
    intro k hk
    have hk' : k = l.length := by omega
    subst hk'
    simp [runNext, List.drop_length]
  | succ n ih =>
    intro k hk
    have hklt : k < l.length := by omega
    have hnext : ({ addrs := l, index := (k : Int) - 1 }
        : AddressIterator).hasNext = true := by
      simp only [AddressIterator.hasNext, decide_eq_true_eq]
      omega
    have hcursor : ((k : Int) - 1 + 1) = (k : Int) := by omega
    have hidx : ((k + 1 : Nat) : Int) - 1 = (k : Int) := by push_cast; ring
    have hget : l.get? ((k : Int)).toNat = some l[k] := by
      simp [List.get?_eq_getElem?, List.getElem?_eq_getElem hklt]
    have hstep : ({ addrs := l, index := (k : Int) - 1 }
          : AddressIterator).getNext
        = ({ addrs := l, index := ((k + 1 : Nat) : Int) - 1 },
            some l[k]) := by
      simp [AddressIterator.getNext, hnext, hcursor, hidx, hget]
    have hdrop : l.drop k = l[k] :: l.drop (k + 1) :=
      List.drop_eq_getElem_cons hklt
    simp only [runNext, hstep, ih (k + 1) (by omega), hdrop, List.map_cons]

/-- C6: a fresh address iterator over a roster of `n` addresses yields
exactly those `n` addresses in roster order through `n` successful
`GetNext` calls; afterwards `HasNext` is false and a further `GetNext`
returns the nil result and leaves the iterator unchanged. -/
theorem addressIterator_contract (ca : CollectiveAuthority) :
    (runNext (addressIterator ca) ca.addrs.length).2 = ca.addrs.map some
    ∧ (runNext (addressIterator ca) ca.addrs.length).1.hasNext = false
    ∧ (runNext (addressIterator ca) ca.addrs.length).1.getNext
        = ((runNext (addressIterator ca) ca.addrs.length).1, none) := by
  have h0 : addressIterator ca
      = { addrs := ca.addrs, index := ((0 : Nat) : Int) - 1 } := by
    simp [addressIterator]
  have hrun := runNext_spec ca.addrs ca.addrs.length 0 (by omega)
  rw [h0, hrun]
  refine ⟨by simp, ?_, ?_⟩
  · simp [AddressIterator.hasNext]
  · simp [AddressIterator.getNext, AddressIterator.hasNext]

/-- Allocation does not change what existing references read. -/
theorem Heap.read_alloc (h : Heap) (c : List Player) (r : Nat)
    (hr : r < h.arrays.length) : (h.alloc c).1.read r = h.read r := by
  simp only [Heap.alloc, Heap.read]
  exact List.getD_append h.arrays [c] [] r hr

/-- Writing one reference does not change what a different reference
reads. -/
theorem Heap.read_write_ne (h : Heap) (r s : Nat) (c : List Player)
    (hne : s ≠ r) : (h.write r c).read s = h.read s := by
  simp only [Heap.write, Heap.read, List.getD_eq_getD_get?,
    List.get?_eq_getElem?]
  rw [List.getElem?_set_ne hne.symm]

/-- Writing never changes the number of allocated arrays. -/
theorem Heap.write_length (h : Heap) (r : Nat) (c : List Player) :
    (h.write r c).arrays.length = h.arrays.length := by
  simp [Heap.write]

/-- The append loop of the fake `Apply` writes only the destination
array. -/
theorem appendAdds_preserves (adds : List Player) (dst s : Nat)
    (hs : s ≠ dst) :
    ∀ h : Heap,
      (appendAdds dst h adds).read s = h.read s
      ∧ (appendAdds dst h adds).arrays.length = h.arrays.length := by
  induction adds with
  | nil => intro h; exact ⟨rfl, rfl⟩
  | cons p adds ih =>
    intro h
    have step := ih (h.write dst (h.read dst ++ [p]))
    refine ⟨?_, ?_⟩
    · exact step.1.trans (Heap.read_write_ne h dst s _ hs)
    · exact step.2.trans (Heap.write_length h dst _)

/-- The removal loop of the fake `Apply` writes only the destination
array. -/
theorem applyRemoves_preserves (il : List Nat) (dst s : Nat)
    (hs : s ≠ dst) :
    ∀ h h' : Heap, applyRemoves h dst il = some h' →
      h'.read s = h.read s ∧ h'.arrays.length = h.arrays.length := by
  induction il with
  | nil =>
    intro h h' heq
    cases heq
    exact ⟨rfl, rfl⟩
  | cons i rest ih =>
    intro h h' heq
    simp only [applyRemoves] at heq
    rcases hg : goRemoveAt (h.read dst) i with _ | c
    · rw [hg] at heq; cases heq
    · rw [hg] at heq
      have step := ih (h.write dst c) h' heq
      refine ⟨step.1.trans (Heap.read_write_ne h dst s c hs), ?_⟩
      exact step.2.trans (Heap.write_length h dst c)

/-- C7: rosters are never mutated in place — on the heap model of the Go
slices, whenever `Apply` or `Take` returns, the returned roster is a
reference distinct from the receiver and the receiver's player sequence
(addresses and public keys, hence also its length) reads back
unchanged. -/
theorem roster_ops_no_mutation (h : Heap) (src : Nat) (cs : ChangeSet)
    (indices : List Nat) (hsrc : src < h.arrays.length) :
    (∀ out, fakeApplyH h src cs = some out →
      out.2 ≠ src ∧ out.1.read src = h.read src)
    ∧ (∀ out, fakeTakeH h src indices = some out →
      out.2 ≠ src ∧ out.1.read src = h.read src) := by
  constructor
  · intro out hout
    simp only [fakeApplyH] at hout
    rcases hr : applyRemoves
        (appendAdds h.arrays.length (h.alloc (h.read src)).1 cs.Add)
        h.arrays.length cs.Remove with _ | h3
    · rw [show (h.alloc (h.read src)).2 = h.arrays.length from rfl, hr] at hout
      cases hout
    · rw [show (h.alloc (h.read src)).2 = h.arrays.length from rfl, hr] at hout
      cases hout
      have hne : src ≠ h.arrays.length := by omega
      refine ⟨by omega, ?_⟩
      have h1 := Heap.read_alloc h (h.read src) src hsrc
      have h2 := (appendAdds_preserves cs.Add h.arrays.length src hne
        (h.alloc (h.read src)).1).1
      have h3p := (applyRemoves_preserves cs.Remove h.arrays.length src hne
        _ h3 hr).1
      rw [h3p, h2, h1]
  · intro out hout
    simp only [fakeTakeH] at hout
    rcases hm : indices.mapM (fun k => (h.read src).get? k) with _ | content
    · rw [hm] at hout; cases hout
    · rw [hm] at hout
      cases hout
      refine ⟨by simp [Heap.alloc]; omega, ?_⟩
      exact Heap.read_alloc h content src hsrc

/-- Witness for C7: on a one-array heap, applying a change set that
removes position 0 and adds player `(1,1)` returns the fresh reference 1
and leaves the receiver array 0 reading `[(0,0)]` as before. -/
theorem roster_ops_no_mutation_witness :
    ((1 : Nat) ≠ 0
      ∧ Heap.read { arrays := [[⟨0, 0⟩], [⟨1, 1⟩]] } 0
          = Heap.read { arrays := [[⟨0, 0⟩]] } 0)
    ∧ ((1 : Nat) ≠ 0
      ∧ Heap.read { arrays := [[⟨0, 0⟩], [⟨0, 0⟩]] } 0
          = Heap.read { arrays := [[⟨0, 0⟩]] } 0) := by
  have h := roster_ops_no_mutation { arrays := [[⟨0, 0⟩]] } 0
    { Remove := [0], Add := [⟨1, 1⟩] } [0] (by decide)
  exact ⟨h.1 ({ arrays := [[⟨0, 0⟩], [⟨1, 1⟩]] }, 1) rfl,
    h.2 ({ arrays := [[⟨0, 0⟩], [⟨0, 0⟩]] }, 1) rfl⟩

/-- C8: diffing against a nil or incompatible authority returns the empty
change set — no removals, no additions — rather than an error (the Go
method has no error return value; the model is total). -/
theorem diff_incompatible_empty (ps : List Player) :
    diffRoster ps .incompatible = { Remove := [], Add := [] }
    ∧ diffRoster ps .nilAuthority = { Remove := [], Add := [] } :=
  ⟨rfl, rfl⟩

/-- The encode loop then the decode loop give back the added players,
provided each player's address and key survive their own codec round
trip. -/
theorem encodeAdds_decodeAdds (c : Codec) :
    ∀ adds : List Player,
      (∀ p ∈ adds,
        (∃ m, c.marshalAddr p.Address = some m ∧ c.addrFromText m = p.Address)
        ∧ ∃ b, c.serializePK p.PublicKey = some b
            ∧ c.publicKeyOf b = some p.PublicKey) →
      ∃ msgs, encodeAdds c adds = some msgs
        ∧ decodeAdds c msgs = some adds
        ∧ msgs.length = adds.length := by
  intro adds
  induction adds with
  | nil => intro _; exact ⟨[], rfl, rfl, rfl⟩
  | cons p ps ih =>
    intro hyp
    obtain ⟨⟨m, hm, hma⟩, ⟨b, hb, hbk⟩⟩ := hyp p (List.mem_cons_self p ps)
    obtain ⟨msgs, henc, hdec, hlen⟩ :=
      ih fun q hq => hyp q (List.mem_cons_of_mem p hq)
    refine ⟨{ Address := m, PublicKey := b } :: msgs, ?_, ?_, by simp [hlen]⟩
    · simp [encodeAdds, encPlayer, hm, hb, henc]
    · simp [decodeAdds, decPlayer, hbk, hdec, hma]

/-- C9: a change set whose added players' addresses and public keys
round-trip through the supplied factories round-trips through the JSON
change-set format: decoding the encoding restores the removal indices and
the added players; with zero additions the decoded `Add` field is the nil
(empty) list, equal to the original empty one. -/
theorem changeset_format_roundtrip (c : Codec) (cs : ChangeSet)
    (hyp : ∀ p ∈ cs.Add,
      (∃ m, c.marshalAddr p.Address = some m ∧ c.addrFromText m = p.Address)
      ∧ ∃ b, c.serializePK p.PublicKey = some b
          ∧ c.publicKeyOf b = some p.PublicKey) :
    ∃ msg, csEncode c cs = some msg ∧ csDecode c msg = some cs := by
  obtain ⟨rem, add⟩ := cs
  obtain ⟨msgs, henc, hdec, hlen⟩ := encodeAdds_decodeAdds c add hyp
  refine ⟨{ Remove := rem, Add := msgs }, ?_, ?_⟩
  · simp [csEncode, henc]
  · rcases add with _ | ⟨p, ps⟩
    · have hm : msgs = [] := List.eq_nil_of_length_eq_zero hlen
      subst hm
      simp [csDecode]
    · have hne : msgs ≠ [] := by
        intro h0
        rw [h0] at hlen
        simp at hlen
      simp [csDecode, hdec, hne]

/-- A concrete codec for the C9 witness: addresses and keys are carried as
one-byte payloads. -/
def unitCodec : Codec where
  marshalAddr := fun a => some [a]
  serializePK := fun k => some [k]
  addrFromText := fun bytes => bytes.getD 0 0
  publicKeyOf := fun bytes => some (bytes.getD 0 0)

/-- Witness for C9: the change set `{Remove: [2], Add: [(5,7)]}` encodes
and decodes back to itself under `unitCodec`. -/
theorem changeset_format_roundtrip_witness :
    ∃ msg, csEncode unitCodec { Remove := [2], Add := [⟨5, 7⟩] } = some msg
      ∧ csDecode unitCodec msg = some { Remove := [2], Add := [⟨5, 7⟩] } := by
  refine changeset_format_roundtrip unitCodec { Remove := [2], Add := [⟨5, 7⟩] }
    ?_
  intro p hp
  have hp' : p = ⟨5, 7⟩ := by
    simpa using hp
  subst hp'
  exact ⟨⟨[5], rfl, rfl⟩, ⟨[7], rfl, rfl⟩⟩

/-- C10 counterexample: on a client whose stored nonce is `2^64 - 1`, the
first `GetNonce` returns `2^64 - 1` and the second returns `0` — the
wrapped `uint64` increment breaks "strictly increasing consecutive
values". -/
theorem getNonce_wrap_cex :
    (getNonce { nonce := 2 ^ 64 - 1 }).1.1 = 2 ^ 64 - 1
    ∧ (getNonce (getNonce { nonce := 2 ^ 64 - 1 }).2).1.1 = 0
    ∧ ¬ ((getNonce { nonce := 2 ^ 64 - 1 }).1.1
          < (getNonce (getNonce { nonce := 2 ^ 64 - 1 }).2).1.1) := by
  refine ⟨rfl, ?_, ?_⟩
  · simp [getNonce]
  · simp [getNonce]

/-- C10 amended: `GetNonce` returns the stored nonce with a nil error and
increments the stored `uint64` by one modulo `2^64`; as long as the
increment does not wrap, a successive call returns the strictly greater
consecutive value. -/
theorem getNonce_counter (c : Client) (h : c.nonce + 1 < 2 ^ 64) :
    (getNonce c).1.1 = c.nonce
    ∧ (getNonce c).1.2 = none
    ∧ (getNonce c).2.nonce = c.nonce + 1
    ∧ (getNonce (getNonce c).2).1.1 = c.nonce + 1
    ∧ (getNonce c).1.1 < (getNonce (getNonce c).2).1.1 := by
  have hmod : (c.nonce + 1) % 2 ^ 64 = c.nonce + 1 := Nat.mod_eq_of_lt h
  refine ⟨rfl, rfl, hmod, hmod, ?_⟩
  simp only [getNonce, hmod]
  omega

/-- Witness for C10 at the client the controller constructs
(`client{nonce: 1}`). -/
theorem getNonce_counter_witness :
    (getNonce { nonce := 1 }).1.1 = 1
    ∧ (getNonce { nonce := 1 }).1.2 = none
    ∧ (getNonce { nonce := 1 }).2.nonce = 2
    ∧ (getNonce (getNonce { nonce := 1 }).2).1.1 = 2
    ∧ (getNonce { nonce := 1 }).1.1
        < (getNonce (getNonce { nonce := 1 }).2).1.1 :=
  getNonce_counter { nonce := 1 } (by norm_num)

end Dela
